import Mathlib

/-!
Verification of the register-diversion tracker
(`src/lib/codegen/src/regalloc/diversion.rs`).

The tracker records temporary relocations of values within one EBB.  We embed
the Rust code shallowly: the tracker state `RegDiversions` is the backing
`Vec<Diversion>` modelled as a `List`, machine operations on the vector
(`iter().position`, indexed update, `swap_remove`, `push`) become the
corresponding list operations, and the `debug_assert!` failures in `divert`
are modelled by returning `none`.
-/

namespace Cretonne

/-- A value reference (`ir::Value`); only identity matters here. -/
abbrev Value := Nat

/-- A register unit identifier (`isa::RegUnit`). -/
abbrev RegUnit := Nat

/-- A stack slot reference (`ir::StackSlot`); only identity matters here. -/
abbrev StackSlot := Nat

/-- Modelled from the spec: `ir::ValueLoc` (file `ir/valueloc.rs` is not part
of the provided sources).  A location is either unassigned, a register unit,
or a stack slot; two locations are equal only if same kind and same
identifier. -/
inductive ValueLoc where
  | Unassigned : ValueLoc
  | Reg : RegUnit → ValueLoc
  | Stack : StackSlot → ValueLoc
deriving DecidableEq, Repr

namespace ValueLoc

/-- Modelled from the spec: a location is "assigned" when it is a register or
a stack slot, i.e. not the unassigned placeholder. -/
def is_assigned : ValueLoc → Bool
  | Unassigned => false
  | Reg _ => true
  | Stack _ => true

end ValueLoc

/-- Modelled from the spec: the static value→location assignment map
(`ir::ValueLocations`) produced by the register allocator.  Looking up a value
that the map does not know fails (the spec says `get` panics when the value is
unknown to both the tracker and the map), so the map is partial. -/
abbrev ValueLocations := Value → Option ValueLoc

/-- A diversion of a value from its original location to a new register or
stack location (`Diversion` in `diversion.rs`). -/
structure Diversion where
  /-- The value that is diverted. -/
  value : Value
  /-- The original value location. -/
  from_loc : ValueLoc
  /-- The current value location. -/
  to_loc : ValueLoc
deriving DecidableEq, Repr

namespace Diversion

/-- `Diversion::new`: the `debug_assert!(from.is_assigned() && to.is_assigned())`
is modelled by returning `none` on failure. -/
def new (value : Value) (from_loc : ValueLoc) (to_loc : ValueLoc) : Option Diversion :=
  if from_loc.is_assigned && to_loc.is_assigned then
    some ⟨value, from_loc, to_loc⟩
  else
    none

end Diversion

/-- The tracker state: the `current: Vec<Diversion>` field of `RegDiversions`,
in vector order. -/
abbrev RegDiversions := List Diversion

namespace RegDiversions

/-- `Vec::swap_remove(i)`: replace the element at `i` with the last element
and pop the vector.  Meaningful for `i < l.length` (as in Rust, where an
out-of-range index panics; our uses always come from `position`). -/
def swapRemove (l : List Diversion) (i : Nat) : List Diversion :=
  match l.getLast? with
  | none => []
  | some last => (l.set i last).dropLast

/-- `RegDiversions::new`: the empty tracker. -/
def new : RegDiversions := []

/-- `RegDiversions::clear`. -/
def clear (_s : RegDiversions) : RegDiversions := []

/-- `RegDiversions::is_empty`. -/
def is_empty (s : RegDiversions) : Bool := s.isEmpty

/-- `RegDiversions::diversion`: first (and, by the tracker invariant, only)
record for `value`. -/
def diversion (s : RegDiversions) (value : Value) : Option Diversion :=
  s.find? (fun d => d.value == value)

/-- `RegDiversions::all`: the backing vector as a slice. -/
def all (s : RegDiversions) : List Diversion := s

/-- `RegDiversions::get`: the diversion's `to` if one is active, otherwise
the assignment map's entry (whose lookup is modelled as partial, see
`ValueLocations`). -/
def get (s : RegDiversions) (value : Value) (locations : ValueLocations) :
    Option ValueLoc :=
  match diversion s value with
  | some d => some d.to_loc
  | none => locations value

/-- `RegDiversions::divert`: record any kind of move.  `none` models a
`debug_assert!` failure (unassigned location, or broken chain). -/
def divert (s : RegDiversions) (value : Value) (from_loc : ValueLoc)
    (to_loc : ValueLoc) : Option RegDiversions :=
  if from_loc.is_assigned && to_loc.is_assigned then
    match s.findIdx? (fun d => d.value == value) with
    | some i =>
      match s[i]? with
      | some d =>
        if d.to_loc = from_loc then
          if d.from_loc ≠ to_loc then
            some (s.set i { d with to_loc := to_loc })
          else
            some (swapRemove s i)
        else
          none
      | none => none
    | none => some (s ++ [⟨value, from_loc, to_loc⟩])
  else
    none

/-- `RegDiversions::regmove`. -/
def regmove (s : RegDiversions) (value : Value) (from_loc to_loc : RegUnit) :
    Option RegDiversions :=
  divert s value (ValueLoc.Reg from_loc) (ValueLoc.Reg to_loc)

/-- `RegDiversions::regspill`. -/
def regspill (s : RegDiversions) (value : Value) (from_loc : RegUnit)
    (to_loc : StackSlot) : Option RegDiversions :=
  divert s value (ValueLoc.Reg from_loc) (ValueLoc.Stack to_loc)

/-- `RegDiversions::regfill`. -/
def regfill (s : RegDiversions) (value : Value) (from_loc : StackSlot)
    (to_loc : RegUnit) : Option RegDiversions :=
  divert s value (ValueLoc.Stack from_loc) (ValueLoc.Reg to_loc)

/-- `RegDiversions::remove`: drop any recorded move for `value`, returning the
`to` location of the removed diversion together with the new state. -/
def remove (s : RegDiversions) (value : Value) :
    Option ValueLoc × RegDiversions :=
  match s.findIdx? (fun d => d.value == value) with
  | some i =>
    match s[i]? with
    | some d => (some d.to_loc, swapRemove s i)
    | none => (none, s)
  | none => (none, s)

end RegDiversions

/-- Modelled from the spec: the instruction representation consumed by
`apply` (`ir::InstructionData` is not part of the provided sources).  Each of
the three diversion instruction formats carries its fixed opcode
(`Regmove`/`Regspill`/`Regfill`), the moved value and the source and
destination locations; every other opcode is abstracted by `Other`. -/
inductive InstructionData where
  | RegMove (arg : Value) (src : RegUnit) (dst : RegUnit) : InstructionData
  | RegSpill (arg : Value) (src : RegUnit) (dst : StackSlot) : InstructionData
  | RegFill (arg : Value) (src : StackSlot) (dst : RegUnit) : InstructionData
  | Other (opcode : Nat) : InstructionData
deriving DecidableEq, Repr

namespace RegDiversions

/-- `RegDiversions::apply`: replay the effect of an instruction on the
tracker. -/
def apply (s : RegDiversions) (inst : InstructionData) : Option RegDiversions :=
  match inst with
  | InstructionData.RegMove arg src dst => regmove s arg src dst
  | InstructionData.RegSpill arg src dst => regspill s arg src dst
  | InstructionData.RegFill arg src dst => regfill s arg src dst
  | InstructionData.Other _ => some s

/-- A chain of `divert` calls on the same value in which each call's `from`
location is the previous call's `to` location (the spec's "move chain"). -/
def divertChain (s : RegDiversions) (v : Value) (from_loc : ValueLoc) :
    List ValueLoc → Option RegDiversions
  | [] => some s
  | t :: ts =>
    match divert s v from_loc t with
    | some s' => divertChain s' v t ts
    | none => none

/-- The tracker invariant: at most one active diversion per value. -/
def distinctValues (s : RegDiversions) : Prop :=
  (s.map Diversion.value).Nodup

/-- States reachable from the empty tracker by the public mutating
operations (`clear`, `divert` and its typed variants, `apply`, `remove`). -/
inductive Reachable : RegDiversions → Prop where
  | initState : Reachable RegDiversions.new
  | clearOp (s : RegDiversions) : Reachable s → Reachable (clear s)
  | divertOp (s : RegDiversions) (v : Value) (a b : ValueLoc)
      (s' : RegDiversions) : Reachable s → divert s v a b = some s' →
      Reachable s'
  | regmoveOp (s : RegDiversions) (v : Value) (a b : RegUnit)
      (s' : RegDiversions) : Reachable s → regmove s v a b = some s' →
      Reachable s'
  | regspillOp (s : RegDiversions) (v : Value) (a : RegUnit) (b : StackSlot)
      (s' : RegDiversions) : Reachable s → regspill s v a b = some s' →
      Reachable s'
  | regfillOp (s : RegDiversions) (v : Value) (a : StackSlot) (b : RegUnit)
      (s' : RegDiversions) : Reachable s → regfill s v a b = some s' →
      Reachable s'
  | applyOp (s : RegDiversions) (inst : InstructionData)
      (s' : RegDiversions) : Reachable s → apply s inst = some s' →
      Reachable s'
  | removeOp (s : RegDiversions) (v : Value) : Reachable s →
      Reachable (remove s v).2

section Lemmas

/-- If no record in `s` is for `v`, `position` finds nothing. -/
lemma findIdx?_value_none {s : RegDiversions} {v : Value}
    (h : diversion s v = none) :
    s.findIdx? (fun d => d.value == v) = none := by
  rw [List.findIdx?_eq_none_iff]
  rw [diversion, List.find?_eq_none] at h
  intro x hx
  simpa using h x hx

/-- If `v`'s first record sits after a prefix with no record for `v`,
`position` returns the prefix length. -/
lemma findIdx?_value_decomp {v : Value} (u : List Diversion) (d : Diversion)
    (w : List Diversion) (hv : d.value = v)
    (hu : ∀ x ∈ u, (x.value == v) = false) :
    (u ++ d :: w).findIdx? (fun x => x.value == v) = some u.length := by
  induction u with
  | nil => simp [hv]
  | cons a u ih =>
    have ha := hu a (List.mem_cons_self a u)
    have ih' := ih (fun x hx => hu x (List.mem_cons_of_mem a hx))
    simp [ha, List.findIdx?_succ, ih']

/-- Indexing at the prefix length of a decomposition. -/
lemma getElem?_decomp (u : List Diversion) (d : Diversion)
    (w : List Diversion) : (u ++ d :: w)[u.length]? = some d := by
  rw [List.getElem?_append_right (Nat.le_refl _)]
  simp

/-- Setting at the prefix length of a decomposition. -/
lemma set_decomp (u : List Diversion) (d d' : Diversion)
    (w : List Diversion) : (u ++ d :: w).set u.length d' = u ++ d' :: w := by
  rw [List.set_append_right _ _ (Nat.le_refl _)]
  simp

/-- Inverse direction: a successful `position` yields a decomposition of the
state around the first record for `v`. -/
lemma findIdx?_value_decomp_inv {v : Value} :
    ∀ (s : RegDiversions) (i : Nat),
      s.findIdx? (fun d => d.value == v) = some i →
      ∃ u d w, s = u ++ d :: w ∧ u.length = i ∧ d.value = v ∧
        (∀ x ∈ u, (x.value == v) = false) := by
  intro s
  induction s with
  | nil => intro i h; simp at h
  | cons a t ih =>
    intro i h
    rw [List.findIdx?_cons] at h
    by_cases ha : (a.value == v) = true
    · rw [if_pos ha] at h
      exact ⟨[], a, t, by simp, by simpa using h,
        by simpa using ha, by simp⟩
    · rw [if_neg ha, List.findIdx?_succ] at h
      obtain ⟨j, hj, rfl⟩ := Option.map_eq_some'.mp h
      obtain ⟨u, d, w, hs, hlen, hdv, hu⟩ := ih j hj
      refine ⟨a :: u, d, w, by simp [hs], by simp [hlen], hdv, ?_⟩
      intro x hx
      rcases List.mem_cons.mp hx with rfl | hx
      · simpa using ha
      · exact hu x hx

/-- `find?` on a decomposed state returns the pivot record. -/
lemma diversion_decomp_eq {v : Value} (u : List Diversion) (d : Diversion)
    (w : List Diversion) (hv : d.value = v)
    (hu : ∀ x ∈ u, (x.value == v) = false) :
    diversion (u ++ d :: w) v = some d := by
  rw [diversion, List.find?_append]
  have h1 : u.find? (fun x => x.value == v) = none := by
    rw [List.find?_eq_none]
    intro x hx
    simp [hu x hx]
  rw [h1, Option.none_or, List.find?_cons_of_pos _ (by simpa using hv)]

/-- A present diversion record decomposes the state. -/
lemma diversion_decomp {s : RegDiversions} {v : Value} {d : Diversion}
    (h : diversion s v = some d) :
    d.value = v ∧ ∃ u w, s = u ++ d :: w ∧
      ∀ x ∈ u, (x.value == v) = false := by
  rw [diversion, List.find?_eq_some] at h
  obtain ⟨hp, u, w, hs, hu⟩ := h
  refine ⟨by simpa using hp, u, w, hs, ?_⟩
  intro x hx
  simpa using hu x hx

/-- `swap_remove` at the last index pops the vector. -/
lemma swapRemove_last (u : List Diversion) (d : Diversion) :
    swapRemove (u ++ [d]) u.length = u := by
  have h1 : (u ++ [d]).getLast? = some d := List.getLast?_concat u
  have hset : (u ++ [d]).set u.length d = u ++ [d] := by
    rw [List.set_append_right _ _ (Nat.le_refl _)]
    simp
  simp only [swapRemove, h1, hset, List.dropLast_concat]

/-- `swap_remove` at the pivot of a decomposition is a permutation of the
list with the pivot erased. -/
lemma swapRemove_decomp (u : List Diversion) (d : Diversion)
    (w : List Diversion) :
    (swapRemove (u ++ d :: w) u.length).Perm (u ++ w) := by
  induction w using List.reverseRecOn with
  | nil => rw [swapRemove_last]; simp
  | append_singleton w' L _ih =>
    have hassoc : u ++ d :: (w' ++ [L]) = (u ++ d :: w') ++ [L] := by simp
    have h1 : ((u ++ d :: w') ++ [L]).getLast? = some L :=
      List.getLast?_concat _
    have hlt : u.length < (u ++ d :: w').length := by
      simp
    have h2 : ((u ++ d :: w') ++ [L]).set u.length L =
        ((u ++ d :: w').set u.length L) ++ [L] :=
      List.set_append_left _ _ hlt
    simp only [swapRemove, hassoc, h1, h2, set_decomp, List.dropLast_concat]
    exact List.Perm.append_left u (List.perm_append_singleton L w').symm

/-- `divert` on a value with no active diversion pushes a fresh record. -/
lemma divert_push {s : RegDiversions} {v : Value} {a b : ValueLoc}
    (ha : a.is_assigned = true) (hb : b.is_assigned = true)
    (h : diversion s v = none) :
    divert s v a b = some (s ++ [⟨v, a, b⟩]) := by
  rw [divert, if_pos (by simp [ha, hb]), findIdx?_value_none h]

/-- `divert` extending an existing chain updates the record's `to` field in
place. -/
lemma divert_extend {v : Value} (u w : List Diversion) (f c t : ValueLoc)
    (hu : ∀ x ∈ u, (x.value == v) = false)
    (hc : c.is_assigned = true) (ht : t.is_assigned = true) (hft : t ≠ f) :
    divert (u ++ ⟨v, f, c⟩ :: w) v c t = some (u ++ ⟨v, f, t⟩ :: w) := by
  rw [divert, if_pos (by simp [hc, ht])]
  simp only [findIdx?_value_decomp (v := v) u ⟨v, f, c⟩ w rfl hu,
    getElem?_decomp]
  rw [if_pos (Ne.symm hft), set_decomp]
  simp

/-- `divert` back to the original location removes the record via
`swap_remove`. -/
lemma divert_collapse {v : Value} (u w : List Diversion) (f c : ValueLoc)
    (hu : ∀ x ∈ u, (x.value == v) = false)
    (hc : c.is_assigned = true) (hf : f.is_assigned = true) :
    divert (u ++ ⟨v, f, c⟩ :: w) v c f =
      some (swapRemove (u ++ ⟨v, f, c⟩ :: w) u.length) := by
  rw [divert, if_pos (by simp [hc, hf])]
  simp only [findIdx?_value_decomp (v := v) u ⟨v, f, c⟩ w rfl hu,
    getElem?_decomp]
  simp

/-- Lookup after pushing a fresh record for `v`. -/
lemma diversion_append_single {s : RegDiversions} {v : Value} {d : Diversion}
    (h : diversion s v = none) (hv : d.value = v) :
    diversion (s ++ [d]) v = some d := by
  rw [diversion, List.find?_append]
  rw [diversion] at h
  rw [h, Option.none_or, List.find?_cons_of_pos _ (by simpa using hv)]

/-- In a state with distinct values, no record for the pivot's value occurs
in the suffix. -/
lemma notIn_suffix_of_distinct {u w : List Diversion} {d : Diversion}
    (h : distinctValues (u ++ d :: w)) :
    ∀ x ∈ w, (x.value == d.value) = false := by
  rw [distinctValues, List.map_append, List.map_cons,
    List.nodup_append] at h
  have h2 := h.2.1
  rw [List.nodup_cons] at h2
  intro x hx
  have : x.value ∈ w.map Diversion.value := List.mem_map_of_mem _ hx
  simp only [beq_eq_false_iff_ne, ne_eq]
  intro hxd
  exact h2.1 (hxd ▸ this)

/-- After `swap_remove` of the only record for `v`, the value is no longer
diverted. -/
lemma diversion_swapRemove_none {u w : List Diversion} {v : Value}
    {d : Diversion}
    (hu : ∀ x ∈ u, (x.value == v) = false)
    (hw : ∀ x ∈ w, (x.value == v) = false) :
    diversion (swapRemove (u ++ d :: w) u.length) v = none := by
  rw [diversion, List.find?_eq_none]
  intro x hx
  have hx' : x ∈ u ++ w := (swapRemove_decomp u d w).mem_iff.mp hx
  rcases List.mem_append.mp hx' with h | h
  · simp [hu x h]
  · simp [hw x h]

/-- A broken chain (`d.to != from`) makes `divert` fail its assertion. -/
lemma divert_broken {s : RegDiversions} {v : Value} {d : Diversion}
    {f t : ValueLoc} (hd : diversion s v = some d) (hne : d.to_loc ≠ f)
    (hf : f.is_assigned = true) (ht : t.is_assigned = true) :
    divert s v f t = none := by
  obtain ⟨hv, u, w, rfl, hu⟩ := diversion_decomp hd
  rw [divert, if_pos (by simp [hf, ht])]
  subst hv
  simp only [findIdx?_value_decomp (v := d.value) u d w rfl hu,
    getElem?_decomp]
  rw [if_neg hne]

/-- `divert` preserves the distinct-values invariant. -/
lemma distinctValues_divert {s s' : RegDiversions} {v : Value}
    {a b : ValueLoc} (h : distinctValues s) (hd : divert s v a b = some s') :
    distinctValues s' := by
  rw [divert] at hd
  by_cases hass : (a.is_assigned && b.is_assigned) = true
  · rw [if_pos hass] at hd
    rcases hidx : s.findIdx? (fun d => d.value == v) with _ | i
    · rw [hidx] at hd
      simp only [Option.some_inj] at hd
      subst hd
      have hnotin : v ∉ s.map Diversion.value := by
        rw [List.findIdx?_eq_none_iff] at hidx
        intro hmem
        obtain ⟨x, hx, hxv⟩ := List.mem_map.mp hmem
        have := hidx x hx
        simp [hxv] at this
      rw [distinctValues] at h ⊢
      have hperm : ((s ++ [(⟨v, a, b⟩ : Diversion)]).map Diversion.value).Perm
          (v :: s.map Diversion.value) := by
        rw [List.map_append]
        exact List.perm_append_singleton _ _
      rw [hperm.nodup_iff, List.nodup_cons]
      exact ⟨hnotin, h⟩
    · obtain ⟨u, d, w, rfl, hlen, hdv, hu⟩ :=
        findIdx?_value_decomp_inv (v := v) s i hidx
      subst hlen
      rw [hidx] at hd
      simp only [getElem?_decomp] at hd
      by_cases hto : d.to_loc = a
      · rw [if_pos hto] at hd
        by_cases hfrom : d.from_loc ≠ b
        · rw [if_pos hfrom] at hd
          rw [set_decomp] at hd
          simp only [Option.some_inj] at hd
          subst hd
          rw [distinctValues] at h ⊢
          simpa using h
        · rw [if_neg hfrom] at hd
          simp only [Option.some_inj] at hd
          subst hd
          rw [distinctValues] at h ⊢
          have hperm := (swapRemove_decomp u d w).map Diversion.value
          rw [hperm.nodup_iff]
          have hsub : ((u ++ w).map Diversion.value).Sublist
              ((u ++ d :: w).map Diversion.value) := by
            simp only [List.map_append, List.map_cons]
            exact (List.sublist_cons_self _ _).append_left _
          exact h.sublist hsub
      · rw [if_neg hto] at hd
        simp at hd
  · rw [if_neg hass] at hd
    simp at hd

/-- `remove` preserves the distinct-values invariant. -/
lemma distinctValues_remove {s : RegDiversions} {v : Value}
    (h : distinctValues s) : distinctValues (remove s v).2 := by
  rcases hidx : s.findIdx? (fun d => d.value == v) with _ | i
  · rw [remove]
    simp only [hidx]
    exact h
  · obtain ⟨u, d, w, rfl, hlen, hdv, hu⟩ :=
      findIdx?_value_decomp_inv (v := v) s i hidx
    subst hlen
    rw [remove]
    simp only [hidx, getElem?_decomp]
    rw [distinctValues] at h ⊢
    have hperm := (swapRemove_decomp u d w).map Diversion.value
    rw [hperm.nodup_iff]
    have hsub : ((u ++ w).map Diversion.value).Sublist
        ((u ++ d :: w).map Diversion.value) := by
      simp only [List.map_append, List.map_cons]
      exact (List.sublist_cons_self _ _).append_left _
    exact h.sublist hsub

/-- `apply` preserves the distinct-values invariant. -/
lemma distinctValues_apply {s s' : RegDiversions} {inst : InstructionData}
    (h : distinctValues s) (hd : apply s inst = some s') :
    distinctValues s' := by
  cases inst with
  | RegMove arg src dst =>
    rw [apply, regmove] at hd
    exact distinctValues_divert h hd
  | RegSpill arg src dst =>
    rw [apply, regspill] at hd
    exact distinctValues_divert h hd
  | RegFill arg src dst =>
    rw [apply, regfill] at hd
    exact distinctValues_divert h hd
  | Other op =>
    rw [apply] at hd
    simp only [Option.some_inj] at hd
    exact hd ▸ h

/-- No active diversion for `v` means no record in the vector is for `v`. -/
lemma notIn_of_diversion_none {s : RegDiversions} {v : Value}
    (h : diversion s v = none) : ∀ x ∈ s, (x.value == v) = false := by
  rw [diversion, List.find?_eq_none] at h
  intro x hx
  simpa using h x hx

end Lemmas

section Claims

/-- Claim C1: starting from any state in which `v` is not diverted (with `a`
and `b` assigned, `a ≠ b`), `divert(v, a, b)` followed by `divert(v, b, a)`
leaves `v` with no active diversion, and if the tracker held no other
diversions `is_empty()` is true; the second call restores the original state
exactly.  The locations range over registers and stack slots alike. -/
theorem divert_roundtrip_collapses (s : RegDiversions) (v : Value)
    (a b : ValueLoc) (ha : a.is_assigned = true) (hb : b.is_assigned = true)
    (_hab : a ≠ b) (hv : diversion s v = none) :
    ∃ s₁ s₂, divert s v a b = some s₁ ∧ divert s₁ v b a = some s₂ ∧
      diversion s₂ v = none ∧ (is_empty s = true → is_empty s₂ = true) := by
  have hnotin := notIn_of_diversion_none hv
  refine ⟨s ++ [⟨v, a, b⟩], s, divert_push ha hb hv, ?_, hv, fun h => h⟩
  have hc := divert_collapse (v := v) s [] a b hnotin hb ha
  rw [swapRemove_last] at hc
  exact hc

/-- Witness for C1: the spec's stack round-trip scenario, `regspill`-style
locations `reg5 → slot2 → reg5` on value 1 from the empty tracker. -/
theorem divert_roundtrip_collapses_witness :
    ∃ s₁ s₂,
      divert RegDiversions.new 1 (ValueLoc.Reg 5) (ValueLoc.Stack 2) =
        some s₁ ∧
      divert s₁ 1 (ValueLoc.Stack 2) (ValueLoc.Reg 5) = some s₂ ∧
      diversion s₂ 1 = none ∧
      (is_empty RegDiversions.new = true → is_empty s₂ = true) :=
  divert_roundtrip_collapses RegDiversions.new 1 (ValueLoc.Reg 5)
    (ValueLoc.Stack 2) rfl rfl (by decide) rfl

/-- Claim C10: `divert(v, a, a)` on a value with no active diversion pushes
and retains the self-move record `{v, a, a}`; afterwards `diversion(v)` is
present and `is_empty()` is false, because the remove-on-return collapse only
applies to a value that already had an active diversion. -/
theorem divert_self_move_retained (s : RegDiversions) (v : Value)
    (a : ValueLoc) (ha : a.is_assigned = true) (hv : diversion s v = none) :
    divert s v a a = some (s ++ [⟨v, a, a⟩]) ∧
      diversion (s ++ [⟨v, a, a⟩]) v = some ⟨v, a, a⟩ ∧
      is_empty (s ++ [⟨v, a, a⟩]) = false := by
  refine ⟨divert_push ha ha hv, diversion_append_single hv rfl, ?_⟩
  simp [is_empty]

/-- Witness for C10: a self-move of value 3 at register 4 on the empty
tracker. -/
theorem divert_self_move_retained_witness :
    divert RegDiversions.new 3 (ValueLoc.Reg 4) (ValueLoc.Reg 4) =
        some (RegDiversions.new ++ [⟨3, ValueLoc.Reg 4, ValueLoc.Reg 4⟩]) ∧
      diversion (RegDiversions.new ++ [⟨3, ValueLoc.Reg 4, ValueLoc.Reg 4⟩])
        3 = some ⟨3, ValueLoc.Reg 4, ValueLoc.Reg 4⟩ ∧
      is_empty (RegDiversions.new ++
        [⟨3, ValueLoc.Reg 4, ValueLoc.Reg 4⟩]) = false :=
  divert_self_move_retained RegDiversions.new 3 (ValueLoc.Reg 4) rfl rfl

/-- Claim C9: calling `divert(v, from, to)` when `v`'s active diversion's
current location differs from the supplied `from` is a fatal assertion
failure (modelled as `none`); no updated state is produced, so the mismatched
move is never silently recorded or patched over. -/
theorem divert_broken_chain_fails (s : RegDiversions) (v : Value)
    (d : Diversion) (f t : ValueLoc) (hd : diversion s v = some d)
    (hne : d.to_loc ≠ f) (hf : f.is_assigned = true)
    (ht : t.is_assigned = true) : divert s v f t = none :=
  divert_broken hd hne hf ht

/-- Witness for C9: value 1 currently lives at register 2, but the move is
recorded as starting from register 9. -/
theorem divert_broken_chain_fails_witness :
    divert [(⟨1, ValueLoc.Reg 1, ValueLoc.Reg 2⟩ : Diversion)] 1
      (ValueLoc.Reg 9) (ValueLoc.Reg 3) = none :=
  divert_broken_chain_fails [⟨1, ValueLoc.Reg 1, ValueLoc.Reg 2⟩] 1
    ⟨1, ValueLoc.Reg 1, ValueLoc.Reg 2⟩ (ValueLoc.Reg 9) (ValueLoc.Reg 3)
    rfl (by decide) rfl rfl

/-- Claim C4: `get(v, assignments)` returns the active diversion's `to` when
one exists, and the assignment map's entry for `v` otherwise. -/
theorem get_resolves_location (s : RegDiversions) (v : Value)
    (locations : ValueLocations) :
    (∀ d, diversion s v = some d → get s v locations = some d.to_loc) ∧
      (diversion s v = none → get s v locations = locations v) := by
  constructor
  · intro d hd
    simp only [get, hd]
  · intro h
    simp only [get, h]

/-- Witness for C4: a diverted value resolves to the diversion's `to`. -/
theorem get_resolves_location_witness :
    get [(⟨1, ValueLoc.Reg 2, ValueLoc.Reg 3⟩ : Diversion)] 1
      (fun _ => some (ValueLoc.Reg 2)) = some (ValueLoc.Reg 3) :=
  (get_resolves_location [⟨1, ValueLoc.Reg 2, ValueLoc.Reg 3⟩] 1
    (fun _ => some (ValueLoc.Reg 2))).1 ⟨1, ValueLoc.Reg 2, ValueLoc.Reg 3⟩
    rfl

/-- Claim C6: `get(v, assignments)` fails (modelled as `none`, the
spec-modelled panic of the assignment-map lookup) when `v` has no active
diversion and is also absent from the assignment map; it never returns a
location for a value unknown to both. -/
theorem get_unknown_both_fails (s : RegDiversions) (v : Value)
    (locations : ValueLocations) (h1 : diversion s v = none)
    (h2 : locations v = none) : get s v locations = none := by
  simp only [get, h1, h2]

/-- Witness for C6: an empty tracker and an empty assignment map. -/
theorem get_unknown_both_fails_witness :
    get RegDiversions.new 7 (fun _ => none) = none :=
  get_unknown_both_fails RegDiversions.new 7 (fun _ => none) rfl rfl

/-- Claim C7: `remove(v)` returns the `to` location of `v`'s active diversion
when one exists and afterwards `v` is no longer diverted; on a value with no
active diversion it returns nothing and leaves the state unchanged.  The
distinct-values hypothesis is the tracker invariant (established for all
reachable states by `reachable_states_have_distinct_values`). -/
theorem remove_contract (s : RegDiversions) (v : Value)
    (hwf : distinctValues s) :
    (∀ d, diversion s v = some d →
        (remove s v).1 = some d.to_loc ∧ diversion (remove s v).2 v = none) ∧
      (diversion s v = none → remove s v = (none, s)) := by
  constructor
  · intro d hd
    obtain ⟨hv, u, w, rfl, hu⟩ := diversion_decomp hd
    subst hv
    have hidx := findIdx?_value_decomp u d w rfl hu
    rw [remove]
    simp only [hidx, getElem?_decomp]
    exact ⟨trivial,
      diversion_swapRemove_none hu (notIn_suffix_of_distinct hwf)⟩
  · intro h
    rw [remove, findIdx?_value_none h]

/-- Witness for C7: removing value 1, diverted from register 2 to
register 3, returns register 3 and leaves the value untracked. -/
theorem remove_contract_witness :
    (remove [(⟨1, ValueLoc.Reg 2, ValueLoc.Reg 3⟩ : Diversion)] 1).1 =
        some (ValueLoc.Reg 3) ∧
      diversion
        (remove [(⟨1, ValueLoc.Reg 2, ValueLoc.Reg 3⟩ : Diversion)] 1).2
        1 = none :=
  (remove_contract [⟨1, ValueLoc.Reg 2, ValueLoc.Reg 3⟩] 1
    (by unfold distinctValues; decide)).1
    ⟨1, ValueLoc.Reg 2, ValueLoc.Reg 3⟩ rfl

/-- Claim C8: `apply` leaves the tracker unchanged on any instruction whose
opcode is not a register-move, register-spill or register-fill, and on the
three recognized opcodes performs exactly the corresponding `divert`
variant. -/
theorem apply_dispatch (s : RegDiversions) (inst : InstructionData) :
    (∀ op, inst = InstructionData.Other op → apply s inst = some s) ∧
      (∀ arg src dst, inst = InstructionData.RegMove arg src dst →
        apply s inst = regmove s arg src dst) ∧
      (∀ arg src dst, inst = InstructionData.RegSpill arg src dst →
        apply s inst = regspill s arg src dst) ∧
      (∀ arg src dst, inst = InstructionData.RegFill arg src dst →
        apply s inst = regfill s arg src dst) := by
  refine ⟨?_, ?_, ?_, ?_⟩
  · intro op h
    subst h
    rfl
  all_goals
    intro arg src dst h
    subst h
    rfl

/-- Witness for C8: a non-move instruction is a no-op even on a non-empty
tracker. -/
theorem apply_dispatch_witness :
    apply [(⟨1, ValueLoc.Reg 2, ValueLoc.Reg 3⟩ : Diversion)]
      (InstructionData.Other 42) =
      some [(⟨1, ValueLoc.Reg 2, ValueLoc.Reg 3⟩ : Diversion)] :=
  (apply_dispatch [⟨1, ValueLoc.Reg 2, ValueLoc.Reg 3⟩]
    (InstructionData.Other 42)).1 42 rfl

/-- Claim C3: every tracker state reachable from the empty state by `clear`,
`divert` (and its `regmove`/`regspill`/`regfill` variants), `apply` and
`remove` has at most one active diversion per value. -/
theorem reachable_states_have_distinct_values (s : RegDiversions)
    (h : Reachable s) : distinctValues s := by
  induction h with
  | initState => simp [distinctValues, RegDiversions.new]
  | clearOp s _ _ => simp [distinctValues, clear]
  | divertOp s v a b s' _ heq ih => exact distinctValues_divert ih heq
  | regmoveOp s v a b s' _ heq ih =>
    rw [regmove] at heq
    exact distinctValues_divert ih heq
  | regspillOp s v a b s' _ heq ih =>
    rw [regspill] at heq
    exact distinctValues_divert ih heq
  | regfillOp s v a b s' _ heq ih =>
    rw [regfill] at heq
    exact distinctValues_divert ih heq
  | applyOp s inst s' _ heq ih => exact distinctValues_apply ih heq
  | removeOp s v _ ih => exact distinctValues_remove ih

/-- Witness for C3: the state reached by a single `divert` from the empty
tracker has distinct values. -/
theorem reachable_states_have_distinct_values_witness :
    distinctValues [(⟨1, ValueLoc.Reg 1, ValueLoc.Reg 2⟩ : Diversion)] :=
  reachable_states_have_distinct_values
    [⟨1, ValueLoc.Reg 1, ValueLoc.Reg 2⟩]
    (Reachable.divertOp RegDiversions.new 1 (ValueLoc.Reg 1)
      (ValueLoc.Reg 2) [⟨1, ValueLoc.Reg 1, ValueLoc.Reg 2⟩]
      Reachable.initState (by decide))

/-- The last element of a nonempty list, via `getLastD` of its tail. -/
lemma getLast?_cons_getLastD (t0 : ValueLoc) (ts : List ValueLoc) :
    (t0 :: ts).getLast? = some (ts.getLastD t0) := by
  induction ts generalizing t0 with
  | nil => rfl
  | cons t ts ih => rw [List.getLast?_cons_cons, ih, List.getLastD_cons]

/-- Extending a single-record chain one hop at a time: each `divert` keeps
the original `from` and moves `to` to the latest hop. -/
lemma divertChain_loop {v : Value} (u : List Diversion) (a0 : ValueLoc)
    (hu : ∀ x ∈ u, (x.value == v) = false) :
    ∀ (ts : List ValueLoc) (c : ValueLoc), c.is_assigned = true →
      (∀ t ∈ ts, t.is_assigned = true ∧ t ≠ a0) →
      divertChain (u ++ [⟨v, a0, c⟩]) v c ts =
        some (u ++ [⟨v, a0, ts.getLastD c⟩]) := by
  intro ts
  induction ts with
  | nil =>
    intro c _ _
    rfl
  | cons t ts ih =>
    intro c hc hts
    have ht := hts t (List.mem_cons_self t ts)
    have hext := divert_extend (v := v) u [] a0 c t hu hc ht.1 ht.2
    rw [divertChain]
    simp only [hext]
    rw [List.getLastD_cons]
    exact ih t ht.1 (fun x hx => hts x (List.mem_cons_of_mem t hx))

/-- Claim C2: for a chain of `divert` calls on the same value `v` in which
each call's `from` equals the previous call's `to` and no `to` after the
first call equals the chain's first `from`, the tracker ends with a single
record for `v` whose `from` is the first call's `from` and whose `to` is the
most recent call's `to`. -/
theorem divertChain_single_record (s : RegDiversions) (v : Value)
    (a0 t0 : ValueLoc) (ts : List ValueLoc) (hv : diversion s v = none)
    (h0 : a0.is_assigned = true) (ht0 : t0.is_assigned = true)
    (hts : ∀ t ∈ ts, t.is_assigned = true ∧ t ≠ a0) :
    ∃ sf, divertChain s v a0 (t0 :: ts) = some sf ∧
      ∃ tn, (t0 :: ts).getLast? = some tn ∧
        diversion sf v = some ⟨v, a0, tn⟩ := by
  have hnotin := notIn_of_diversion_none hv
  refine ⟨s ++ [⟨v, a0, ts.getLastD t0⟩], ?_, ts.getLastD t0,
    getLast?_cons_getLastD t0 ts, diversion_append_single hv rfl⟩
  rw [divertChain]
  simp only [divert_push h0 ht0 hv]
  exact divertChain_loop s a0 hnotin ts t0 ht0 hts

/-- Witness for C2: the chain reg10 → reg12 → reg11 → stack 7 on value 1
keeps `from = reg10` and ends with `to = stack 7`. -/
theorem divertChain_single_record_witness :
    ∃ sf,
      divertChain RegDiversions.new 1 (ValueLoc.Reg 10)
        [ValueLoc.Reg 12, ValueLoc.Reg 11, ValueLoc.Stack 7] = some sf ∧
      ∃ tn,
        ([ValueLoc.Reg 12, ValueLoc.Reg 11,
          ValueLoc.Stack 7] : List ValueLoc).getLast? = some tn ∧
        diversion sf 1 = some ⟨1, ValueLoc.Reg 10, tn⟩ :=
  divertChain_single_record RegDiversions.new 1 (ValueLoc.Reg 10)
    (ValueLoc.Reg 12) [ValueLoc.Reg 11, ValueLoc.Stack 7] rfl rfl rfl
    (by decide)

/-- Claim C5 counterexample: with three values diverted (in insertion order
v1, v2, v3), removing v1's diversion reverses the relative order of v2 and
v3 in `all()`, because `remove` uses `swap_remove`.  The claim's required
order-stable result `[v2's record, v3's record]` is not what the code
produces. -/
theorem remove_breaks_relative_order :
    regmove RegDiversions.new 1 1 2 =
        some [⟨1, ValueLoc.Reg 1, ValueLoc.Reg 2⟩] ∧
      regmove [(⟨1, ValueLoc.Reg 1, ValueLoc.Reg 2⟩ : Diversion)] 2 3 4 =
        some [⟨1, ValueLoc.Reg 1, ValueLoc.Reg 2⟩,
          ⟨2, ValueLoc.Reg 3, ValueLoc.Reg 4⟩] ∧
      regmove [(⟨1, ValueLoc.Reg 1, ValueLoc.Reg 2⟩ : Diversion),
          ⟨2, ValueLoc.Reg 3, ValueLoc.Reg 4⟩] 3 5 6 =
        some [⟨1, ValueLoc.Reg 1, ValueLoc.Reg 2⟩,
          ⟨2, ValueLoc.Reg 3, ValueLoc.Reg 4⟩,
          ⟨3, ValueLoc.Reg 5, ValueLoc.Reg 6⟩] ∧
      all (remove [(⟨1, ValueLoc.Reg 1, ValueLoc.Reg 2⟩ : Diversion),
          ⟨2, ValueLoc.Reg 3, ValueLoc.Reg 4⟩,
          ⟨3, ValueLoc.Reg 5, ValueLoc.Reg 6⟩] 1).2 =
        [⟨3, ValueLoc.Reg 5, ValueLoc.Reg 6⟩,
          ⟨2, ValueLoc.Reg 3, ValueLoc.Reg 4⟩] ∧
      all (remove [(⟨1, ValueLoc.Reg 1, ValueLoc.Reg 2⟩ : Diversion),
          ⟨2, ValueLoc.Reg 3, ValueLoc.Reg 4⟩,
          ⟨3, ValueLoc.Reg 5, ValueLoc.Reg 6⟩] 1).2 ≠
        [⟨2, ValueLoc.Reg 3, ValueLoc.Reg 4⟩,
          ⟨3, ValueLoc.Reg 5, ValueLoc.Reg 6⟩] := by
  decide

/-- Claim C5 amended: `all()` enumerates the backing vector; removing one
value's diversion leaves every other value's record present with unchanged
fields — the remaining `all()` entries are a permutation of the other
values' records — but their relative order may change, because removal
swaps the last record into the removed slot. -/
theorem remove_preserves_other_entries (s : RegDiversions) (v : Value)
    (hwf : distinctValues s) :
    (all (remove s v).2).Perm
      ((all s).filter (fun d => !(d.value == v))) := by
  rcases hidx : s.findIdx? (fun d => d.value == v) with _ | i
  · rw [remove]
    simp only [hidx, all]
    have hself : s.filter (fun d => !(d.value == v)) = s :=
      List.filter_eq_self.mpr (fun x hx => by
        have hx' := List.findIdx?_eq_none_iff.mp hidx x hx
        simp [hx'])
    rw [hself]
  · obtain ⟨u, d, w, rfl, hlen, hdv, hu⟩ :=
      findIdx?_value_decomp_inv (v := v) s i hidx
    subst hlen
    subst hdv
    rw [remove]
    simp only [hidx, getElem?_decomp]
    have hw := notIn_suffix_of_distinct hwf
    have hfilter : (u ++ d :: w).filter (fun x => !(x.value == d.value)) =
        u ++ w := by
      rw [List.filter_append, List.filter_cons]
      have hcond : (!(d.value == d.value)) = false := by simp
      rw [hcond]
      simp only [Bool.false_eq_true, if_false]
      rw [List.filter_eq_self.mpr (fun x hx => by simp [hu x hx]),
        List.filter_eq_self.mpr (fun x hx => by simp [hw x hx])]
    simp only [all]
    rw [hfilter]
    exact swapRemove_decomp u d w

/-- Witness for the amended C5: removing v1 from the three-record state
leaves exactly v2's and v3's records (as a permutation). -/
theorem remove_preserves_other_entries_witness :
    (all (remove [(⟨1, ValueLoc.Reg 1, ValueLoc.Reg 2⟩ : Diversion),
        ⟨2, ValueLoc.Reg 3, ValueLoc.Reg 4⟩,
        ⟨3, ValueLoc.Reg 5, ValueLoc.Reg 6⟩] 1).2).Perm
      ((all [(⟨1, ValueLoc.Reg 1, ValueLoc.Reg 2⟩ : Diversion),
        ⟨2, ValueLoc.Reg 3, ValueLoc.Reg 4⟩,
        ⟨3, ValueLoc.Reg 5, ValueLoc.Reg 6⟩]).filter
        (fun d => !(d.value == 1))) :=
  remove_preserves_other_entries
    [⟨1, ValueLoc.Reg 1, ValueLoc.Reg 2⟩,
      ⟨2, ValueLoc.Reg 3, ValueLoc.Reg 4⟩,
      ⟨3, ValueLoc.Reg 5, ValueLoc.Reg 6⟩] 1
    (by unfold distinctValues; decide)

end Claims

end RegDiversions

end Cretonne
